import Mathlib

set_option autoImplicit false

/-!
Shallow embedding of `src/helix-stdx/src/str.rs` (the `TinyBoxedStr` type of
wolf/helix), modelled for a 64-bit target (`size_of::<usize>() = 8`).

Strings are byte lists (`Bytes`); UTF-8 validity plays no role in any of the
byte-level properties proved here, and `str::from_utf8_unchecked` is the
identity on bytes, so `as_str` and `as_bytes` coincide in the model.

The global allocator is modelled explicitly as a `Heap`: a counter supplying
fresh addresses plus the list of live blocks (address, contents).  `alloc`
returns a fresh address and records the block; `dealloc` removes it.  Every
operation of the Rust code that can touch the allocator is threaded through a
`Heap`, so allocation behaviour (how many blocks, their sizes, aliasing) is
visible in the model.
-/

namespace TinyStr

/-- Bytes of a machine word (`size_of::<usize>()`) on the modelled 64-bit target. -/
def WORD_SIZE : Nat := 8

/-- `PREFIX_LEN = size_of::<usize>() - size_of::<u8>()` (7 on 64-bit). -/
def PREFIX_LEN : Nat := WORD_SIZE - 1

/-- `SUFFIX_LEN = size_of::<usize>()` (8 on 64-bit). -/
def SUFFIX_LEN : Nat := WORD_SIZE

/-- `INLINE_LEN = (PREFIX_LEN + SUFFIX_LEN) as u8` (15 on 64-bit). -/
def INLINE_LEN : Nat := PREFIX_LEN + SUFFIX_LEN

/-- `MAX_LEN = u8::MAX as usize = 255`. -/
def MAX_LEN : Nat := 255

/-- A byte string: a list of byte values. -/
abbrev Bytes := List Nat

/-- The comparison `len <= INLINE_LEN` that selects the storage mode.  The
Rust code writes this comparison in `try_from`, `as_bytes`, `clone` and
`drop`; the model routes all four through this single predicate so that the
uniformity of the threshold is visible. -/
def lenIsInline (len : Nat) : Bool := decide (len ≤ INLINE_LEN)

/-- The model of the global allocator: `next` supplies fresh addresses,
`blocks` lists the live allocations as (address, contents) pairs, most
recent first. -/
structure Heap where
  next : Nat
  blocks : List (Nat × Bytes)
  deriving DecidableEq

/-- Contents of the live block at address `p`, if any. -/
def Heap.lookup (h : Heap) (p : Nat) : Option Bytes :=
  (h.blocks.find? (fun b => b.1 == p)).map (fun b => b.2)

/-- Allocator well-formedness: every live address was previously issued. -/
def Heap.WF (h : Heap) : Prop :=
  ∀ b ∈ h.blocks, b.1 < h.next

/-- The empty allocator state. -/
def emptyHeap : Heap := ⟨0, []⟩

/-- `TinyBoxedStr::layout(len)`: `Layout::array::<u8>(len).pad_to_align()`
has alignment 1 and size exactly `len`, so the layout is captured by its
size. -/
def layout (len : Nat) : Nat := len

/-- `Heap` model of `alloc::dealloc(ptr, layout)`: the block at `p` is
removed from the live set.  (The real allocator additionally requires `size`
to equal the size used to allocate; the development proves that the sizes
supplied by `drop` do match, see `alloc_dealloc_symmetry`.) -/
def Heap.dealloc (h : Heap) (p : Nat) (size : Nat) : Heap :=
  ⟨h.next, h.blocks.filter (fun b => b.1 != p)⟩

/-- `TinyBoxedStr::copy_bytes(source)`: allocate `layout source.len()` bytes
and copy `source` into the new buffer; returns the (non-null) pointer.  In
the model: a fresh address paired with the grown heap. -/
def copy_bytes (source : Bytes) (h : Heap) : Nat × Heap :=
  (h.next, ⟨h.next + 1, (h.next, source.take (layout source.length)) :: h.blocks⟩)

/-- The `TinyStrTrailing` union.  The Rust union is untagged and
discriminated by `len`; the model uses a tagged sum and the code below only
ever reads the variant selected by `lenIsInline`, mirroring the safety
argument of the Rust code. -/
inductive TinyStrTrailing where
  | suffix (bytes : Bytes)
  | ptr (p : Nat)
  deriving DecidableEq

/-- Reading `trailing.suffix`.  A read under the wrong mode is undefined
behaviour in Rust; the model returns `[]` there, and no operation performs
such a read on a well-formed value. -/
def TinyStrTrailing.suffixBytes : TinyStrTrailing → Bytes
  | .suffix bs => bs
  | .ptr _ => []

/-- Reading `trailing.ptr`; address 0 stands for the (never performed)
wrong-mode read. -/
def TinyStrTrailing.ptrVal : TinyStrTrailing → Nat
  | .ptr p => p
  | .suffix _ => 0

/-- The `TinyBoxedStr` struct: `len: u8`, `prefix: [u8; PREFIX_LEN]` (named
`pfx` here since `prefix` is a Lean keyword), `trailing: TinyStrTrailing`. -/
structure TinyBoxedStr where
  len : Nat
  pfx : Bytes
  trailing : TinyStrTrailing
  deriving DecidableEq

/-- `TinyBoxedStr::len()`. -/
def TinyBoxedStr.length (v : TinyBoxedStr) : Nat := v.len

/-- `TinyBoxedStr::is_empty()`. -/
def TinyBoxedStr.isEmpty (v : TinyBoxedStr) : Bool := v.len == 0

/-- `TinyBoxedStr::as_bytes()`: if `len <= INLINE_LEN`, read `len` bytes
starting at the `prefix` field (which `repr(C)` lays out contiguously with
the in-struct suffix); otherwise read `len` bytes through the stored
pointer. -/
def TinyBoxedStr.as_bytes (v : TinyBoxedStr) (h : Heap) : Bytes :=
  if lenIsInline v.len then
    (v.pfx ++ v.trailing.suffixBytes).take v.len
  else
    ((h.lookup v.trailing.ptrVal).getD []).take v.len

/-- `TinyBoxedStr::as_str()`: `str::from_utf8_unchecked` over `as_bytes`,
the identity on the underlying bytes. -/
def TinyBoxedStr.as_str (v : TinyBoxedStr) (h : Heap) : Bytes :=
  v.as_bytes h

/-- The `TooLongError` unit struct. -/
inductive TooLongError where
  | mk
  deriving DecidableEq

/-- The `prefix` array built by the inline branch of `try_from`: starts as
`[0; PREFIX_LEN]`, then either the whole (short) input or its first
`PREFIX_LEN` bytes are copied in. -/
def inlinePfx (s : Bytes) : Bytes :=
  if s.length ≤ PREFIX_LEN then s ++ List.replicate (PREFIX_LEN - s.length) 0
  else s.take PREFIX_LEN

/-- The `suffix` array built by the inline branch of `try_from`: starts as
`[0; SUFFIX_LEN]`; when the input overflows the prefix, bytes
`PREFIX_LEN..` are copied into its front. -/
def inlineSfx (s : Bytes) : Bytes :=
  if s.length ≤ PREFIX_LEN then List.replicate SUFFIX_LEN 0
  else s.drop PREFIX_LEN ++ List.replicate (SUFFIX_LEN - (s.length - PREFIX_LEN)) 0

/-- `<TinyBoxedStr as TryFrom<&str>>::try_from`, threaded through the heap.
Returns the untouched heap alongside the error when the input is too long. -/
def tryFrom (s : Bytes) (h : Heap) : Except TooLongError TinyBoxedStr × Heap :=
  if s.length > MAX_LEN then (.error .mk, h)
  else if lenIsInline s.length then
    (.ok ⟨s.length, inlinePfx s, .suffix (inlineSfx s)⟩, h)
  else
    let ph := copy_bytes s h
    (.ok ⟨s.length, s.take PREFIX_LEN, .ptr ph.1⟩, ph.2)

/-- `<TinyBoxedStr as Drop>::drop`: if `len > INLINE_LEN`, deallocate the
buffer with `layout(len)`; otherwise do nothing. -/
def TinyBoxedStr.drop (v : TinyBoxedStr) (h : Heap) : Heap :=
  if lenIsInline v.len then h
  else h.dealloc v.trailing.ptrVal (layout v.len)

/-- `<TinyBoxedStr as Clone>::clone`: inline values duplicate the struct
bytewise; heap values deep-copy the content into a fresh buffer via
`copy_bytes(self.as_bytes())`. -/
def TinyBoxedStr.clone (v : TinyBoxedStr) (h : Heap) : TinyBoxedStr × Heap :=
  if lenIsInline v.len then
    (⟨v.len, v.pfx, .suffix v.trailing.suffixBytes⟩, h)
  else
    let ph := copy_bytes (v.as_bytes h) h
    (⟨v.len, v.pfx, .ptr ph.1⟩, ph.2)

/-- `<TinyBoxedStr as Default>::default`: length 0, all storage zeroed, no
heap involvement (the definition does not mention a heap at all). -/
def TinyBoxedStr.default : TinyBoxedStr :=
  ⟨0, List.replicate PREFIX_LEN 0, .suffix (List.replicate SUFFIX_LEN 0)⟩

/-- `<TinyBoxedStr as PartialEq>::eq`: `self.as_str() == other.as_str()`. -/
def TinyBoxedStr.eq (a b : TinyBoxedStr) (h : Heap) : Bool :=
  a.as_str h == b.as_str h

/-- `<TinyBoxedStr as Hash>::hash`: `self.as_str().hash(state)`.  The hasher
is abstracted as an arbitrary function from the hashed bytes and the hasher
state to the new state. -/
def TinyBoxedStr.hash (hashStr : Bytes → Nat → Nat) (v : TinyBoxedStr) (h : Heap)
    (state : Nat) : Nat :=
  hashStr (v.as_str h) state

/-- Well-formedness of a value against a heap: the invariants the Rust type
maintains.  `len` is at most `MAX_LEN`; the prefix field has its fixed size;
inline values carry a suffix array of the fixed size; heap values carry a
previously issued address whose live block has exactly `len` bytes and whose
first `PREFIX_LEN` bytes are cached in the prefix field. -/
def TinyBoxedStr.WF (v : TinyBoxedStr) (h : Heap) : Prop :=
  v.len ≤ MAX_LEN ∧ v.pfx.length = PREFIX_LEN ∧
  (if lenIsInline v.len then
    ∃ sfx, v.trailing = .suffix sfx ∧ sfx.length = SUFFIX_LEN
  else
    ∃ p buf, v.trailing = .ptr p ∧ p < h.next ∧ h.lookup p = some buf ∧
      buf.length = v.len ∧ v.pfx = buf.take PREFIX_LEN)

/-- Collect a construction result: a successful value is kept, a failed
construction contributes nothing. -/
def consValue (r : Except TooLongError TinyBoxedStr) (rest : List TinyBoxedStr) :
    List TinyBoxedStr :=
  match r with
  | .ok v => v :: rest
  | .error _ => rest

/-- Construct one value per input string, left to right, threading the heap
(too-long inputs produce no value and leave the heap untouched, as proved
below). -/
def constructList (ss : List Bytes) (h : Heap) : List TinyBoxedStr × Heap :=
  match ss with
  | [] => ([], h)
  | s :: rest =>
    let r := constructList rest (tryFrom s h).2
    (consValue (tryFrom s h).1 r.1, r.2)

/-- Run the destructor of each value in the list, left to right. -/
def dropList (vs : List TinyBoxedStr) (h : Heap) : Heap :=
  vs.foldl (fun hh v => TinyBoxedStr.drop v hh) h

/-- The addresses owned by the heap-stored values of a list. -/
def heapPtrs (vs : List TinyBoxedStr) : List Nat :=
  vs.filterMap (fun v => if lenIsInline v.len then none else some v.trailing.ptrVal)

/-- One step of an allocation scenario: either construct a fresh value from a
string, or clone the `i`-th live value. -/
inductive Op where
  | construct (s : Bytes)
  | clone (i : Nat)

/-- Run a clone step: clone the looked-up value (prepending the copy to the
live list) or do nothing when the index is out of range. -/
def cloneAt (vs : List TinyBoxedStr) (h : Heap) (r : Option TinyBoxedStr) :
    List TinyBoxedStr × Heap :=
  match r with
  | some v => ((v.clone h).1 :: vs, (v.clone h).2)
  | none => (vs, h)

/-- Apply one scenario step to the live values and the heap. -/
def applyOp (vs : List TinyBoxedStr) (h : Heap) : Op → List TinyBoxedStr × Heap
  | .construct s => (consValue (tryFrom s h).1 vs, (tryFrom s h).2)
  | .clone i => cloneAt vs h (vs.get? i)

/-- Run a whole scenario: an arbitrary interleaving of constructions and
clones, left to right, threading the live values and the heap. -/
def runOps (ops : List Op) (vs : List TinyBoxedStr) (h : Heap) :
    List TinyBoxedStr × Heap :=
  match ops with
  | [] => (vs, h)
  | op :: rest => runOps rest (applyOp vs h op).1 (applyOp vs h op).2

/-- Invariant of a scenario running from initial heap `h0`: the address
counter only grew, the heap is well formed, every heap pointer owned by a
live value is an address issued after the scenario started, every live value
is well formed, and the live blocks are exactly the scenario-owned blocks
(each belonging to some live value) in front of the untouched initial
blocks. -/
def ScenarioInv (h0 : Heap) (vs : List TinyBoxedStr) (h : Heap) : Prop :=
  h0.next ≤ h.next ∧ h.WF ∧
  (∀ p ∈ heapPtrs vs, h0.next ≤ p) ∧
  (∀ v ∈ vs, v.WF h) ∧
  ∃ owned, h.blocks = owned ++ h0.blocks ∧
    (∀ b ∈ owned, h0.next ≤ b.1 ∧ b.1 ∈ heapPtrs vs)

/-! ### Basic facts: constants, threshold predicate, heap lookups -/

theorem PREFIX_LEN_eq : PREFIX_LEN = 7 := rfl

theorem SUFFIX_LEN_eq : SUFFIX_LEN = 8 := rfl

theorem INLINE_LEN_eq : INLINE_LEN = 15 := rfl

theorem MAX_LEN_eq : MAX_LEN = 255 := rfl

theorem lenIsInline_true_iff (n : Nat) : lenIsInline n = true ↔ n ≤ INLINE_LEN := by
  simp [lenIsInline]

theorem lenIsInline_false_iff (n : Nat) : lenIsInline n = false ↔ INLINE_LEN < n := by
  simp [lenIsInline]

theorem Heap.lookup_cons_self (nxt p : Nat) (buf : Bytes) (bs : List (Nat × Bytes)) :
    Heap.lookup ⟨nxt, (p, buf) :: bs⟩ p = some buf := by
  simp [Heap.lookup, List.find?]

theorem Heap.lookup_cons_ne (nxt p q : Nat) (buf : Bytes) (bs : List (Nat × Bytes))
    (hpq : q ≠ p) : Heap.lookup ⟨nxt, (p, buf) :: bs⟩ q = Heap.lookup ⟨nxt, bs⟩ q := by
  unfold Heap.lookup
  rw [List.find?_cons_of_neg bs (by simp; exact fun hc => hpq hc.symm)]

theorem find?_key_filter_ne (bs : List (Nat × Bytes)) (p q : Nat) (hpq : q ≠ p) :
    (bs.filter (fun b => b.1 != p)).find? (fun b => b.1 == q) =
      bs.find? (fun b => b.1 == q) := by
  induction bs with
  | nil => rfl
  | cons b bs ih =>
    rw [List.filter_cons]
    by_cases hb : b.1 = p
    · rw [if_neg (by simp [hb]), ih,
        List.find?_cons_of_neg bs (by simp [hb]; exact fun hc => hpq hc.symm)]
    · rw [if_pos (by simp [hb])]
      by_cases hq : b.1 = q
      · rw [List.find?_cons_of_pos _ (by simp [hq]),
          List.find?_cons_of_pos _ (by simp [hq])]
      · rw [List.find?_cons_of_neg _ (by simp [hq]),
          List.find?_cons_of_neg _ (by simp [hq]), ih]

theorem Heap.lookup_dealloc_ne (h : Heap) (p q sz : Nat) (hpq : q ≠ p) :
    (h.dealloc p sz).lookup q = h.lookup q := by
  unfold Heap.dealloc Heap.lookup
  simp only
  rw [find?_key_filter_ne h.blocks p q hpq]

/-! ### The bytes produced by the inline branch of construction -/

theorem inlinePfx_length (s : Bytes) : (inlinePfx s).length = PREFIX_LEN := by
  unfold inlinePfx
  by_cases hp : s.length ≤ PREFIX_LEN
  · simp [hp]
  · simp [hp]
    omega

theorem inlineSfx_length (s : Bytes) (hs : s.length ≤ INLINE_LEN) :
    (inlineSfx s).length = SUFFIX_LEN := by
  unfold inlineSfx
  by_cases hp : s.length ≤ PREFIX_LEN
  · simp [hp]
  · simp [hp]
    unfold INLINE_LEN PREFIX_LEN SUFFIX_LEN WORD_SIZE at *
    omega

theorem inlinePfx_append_inlineSfx (s : Bytes) (hs : s.length ≤ INLINE_LEN) :
    inlinePfx s ++ inlineSfx s = s ++ List.replicate (INLINE_LEN - s.length) 0 := by
  unfold inlinePfx inlineSfx
  by_cases hp : s.length ≤ PREFIX_LEN
  · have h1 : PREFIX_LEN - s.length + SUFFIX_LEN = INLINE_LEN - s.length := by
      unfold INLINE_LEN PREFIX_LEN SUFFIX_LEN WORD_SIZE at *
      omega
    simp [hp, List.append_assoc, ← List.replicate_add, h1]
  · have h1 : SUFFIX_LEN - (s.length - PREFIX_LEN) = INLINE_LEN - s.length := by
      unfold INLINE_LEN PREFIX_LEN SUFFIX_LEN WORD_SIZE at *
      omega
    rw [if_neg hp, if_neg hp, ← List.append_assoc, List.take_append_drop, h1]

/-! ### Case analysis of `try_from` -/

theorem tryFrom_too_long (s : Bytes) (h : Heap) (hs : MAX_LEN < s.length) :
    tryFrom s h = (Except.error TooLongError.mk, h) := by
  simp [tryFrom, hs]

theorem tryFrom_inline (s : Bytes) (h : Heap) (hs : s.length ≤ INLINE_LEN) :
    tryFrom s h =
      (Except.ok ⟨s.length, inlinePfx s, TinyStrTrailing.suffix (inlineSfx s)⟩, h) := by
  have h1 : ¬ MAX_LEN < s.length := by
    unfold INLINE_LEN PREFIX_LEN SUFFIX_LEN WORD_SIZE MAX_LEN at *
    omega
  have h2 : lenIsInline s.length = true := (lenIsInline_true_iff _).2 hs
  simp [tryFrom, h1, h2]

theorem tryFrom_heap (s : Bytes) (h : Heap) (h1 : INLINE_LEN < s.length)
    (h2 : s.length ≤ MAX_LEN) :
    tryFrom s h = (Except.ok ⟨s.length, s.take PREFIX_LEN, TinyStrTrailing.ptr h.next⟩,
      ⟨h.next + 1, (h.next, s) :: h.blocks⟩) := by
  have hn : ¬ MAX_LEN < s.length := by omega
  have hl : lenIsInline s.length = false := (lenIsInline_false_iff _).2 h1
  simp [tryFrom, hn, hl, copy_bytes, layout]

/-! ### Reading content back -/

theorem as_bytes_tryFrom_inline (s : Bytes) (h2 : Heap) (hs : s.length ≤ INLINE_LEN) :
    TinyBoxedStr.as_bytes ⟨s.length, inlinePfx s, .suffix (inlineSfx s)⟩ h2 = s := by
  have hv : lenIsInline s.length = true := (lenIsInline_true_iff _).2 hs
  simp [TinyBoxedStr.as_bytes, hv, TinyStrTrailing.suffixBytes,
    inlinePfx_append_inlineSfx s hs]

theorem as_bytes_heap_of_lookup (v : TinyBoxedStr) (h : Heap) (p : Nat) (buf : Bytes)
    (hv : lenIsInline v.len = false) (hp : v.trailing = .ptr p)
    (hlook : h.lookup p = some buf) (hlen : buf.length = v.len) :
    v.as_bytes h = buf := by
  simp only [TinyBoxedStr.as_bytes, hv, Bool.false_eq_true, if_false, hp,
    TinyStrTrailing.ptrVal, hlook, Option.getD_some]
  rw [← hlen]
  simp

/-- C1: for every string of byte length at most 255 (`MAX_LEN`), construction
succeeds and `as_str` on the result returns exactly the input bytes (hence
the same length), whether the content went inline or to the heap. -/
theorem construct_roundtrip (s : Bytes) (h : Heap) (hs : s.length ≤ MAX_LEN) :
    ∃ v h', tryFrom s h = (Except.ok v, h') ∧ v.as_str h' = s ∧ v.len = s.length := by
  rcases le_or_lt s.length INLINE_LEN with hin | hout
  · refine ⟨⟨s.length, inlinePfx s, .suffix (inlineSfx s)⟩, h, tryFrom_inline s h hin, ?_, rfl⟩
    exact as_bytes_tryFrom_inline s h hin
  · refine ⟨⟨s.length, s.take PREFIX_LEN, .ptr h.next⟩,
      ⟨h.next + 1, (h.next, s) :: h.blocks⟩, tryFrom_heap s h hout hs, ?_, rfl⟩
    have hv : lenIsInline s.length = false := (lenIsInline_false_iff _).2 hout
    exact as_bytes_heap_of_lookup _ _ h.next s hv rfl (Heap.lookup_cons_self _ _ _ _) rfl

theorem construct_roundtrip_witness :
    ∃ v h', tryFrom [104, 101, 108, 108, 111] emptyHeap = (Except.ok v, h') ∧
      v.as_str h' = [104, 101, 108, 108, 111] ∧
      v.len = [104, 101, 108, 108, 111].length :=
  construct_roundtrip [104, 101, 108, 108, 111] emptyHeap (by decide)

/-- C2: construction fails, and fails with `TooLongError`, exactly when the
input's byte length exceeds `MAX_LEN = 255`.  (`TooLongError.mk` is the only
inhabitant of the error type, and every other operation of the development —
`default`, `clone`, `as_bytes`, `as_str`, `eq`, `hash`, `drop` — is a total
function whose result type carries no error case.) -/
theorem construct_error_iff_too_long (s : Bytes) (h : Heap) :
    ((tryFrom s h).1 = Except.error TooLongError.mk ↔ MAX_LEN < s.length) ∧
    ∀ e : TooLongError, e = TooLongError.mk := by
  constructor
  · constructor
    · intro he
      by_contra hc
      have hle : s.length ≤ MAX_LEN := by omega
      rcases le_or_lt s.length INLINE_LEN with hin | hout
      · rw [tryFrom_inline s h hin] at he
        exact absurd he (by simp)
      · rw [tryFrom_heap s h hout hle] at he
        exact absurd he (by simp)
    · intro hgt
      rw [tryFrom_too_long s h hgt]
  · intro e
    cases e
    rfl

/-- C10: failed construction is side-effect free: when the input exceeds
`MAX_LEN` bytes, `try_from` returns the error with the heap untouched (no
allocation happened), and the outcome depends only on the input's length,
never on its content bytes. -/
theorem failed_construct_no_effect (s t : Bytes) (h h2 : Heap) (hs : MAX_LEN < s.length) :
    tryFrom s h = (Except.error TooLongError.mk, h) ∧
    (t.length = s.length → tryFrom t h2 = (Except.error TooLongError.mk, h2)) := by
  refine ⟨tryFrom_too_long s h hs, fun ht => tryFrom_too_long t h2 ?_⟩
  omega

theorem failed_construct_no_effect_witness :
    tryFrom (List.replicate 256 0) emptyHeap = (Except.error TooLongError.mk, emptyHeap) ∧
    (List.length (List.replicate 256 1) = List.length (List.replicate 256 0) →
      tryFrom (List.replicate 256 1) emptyHeap =
        (Except.error TooLongError.mk, emptyHeap)) :=
  failed_construct_no_effect (List.replicate 256 0) (List.replicate 256 1)
    emptyHeap emptyHeap (by rw [List.length_replicate, MAX_LEN_eq]; exact Nat.lt_succ_self 255)

/-- C5: equality on `TinyBoxedStr` is exactly byte-for-byte equality of the
text content: `eq a b` holds iff `as_str a = as_str b`.  The definition of
`eq` consults the content alone, so the storage mode of either side plays no
role. -/
theorem eq_iff_content (a b : TinyBoxedStr) (h : Heap) :
    a.eq b h = true ↔ a.as_str h = b.as_str h := by
  simp [TinyBoxedStr.eq]

/-- C6: hashing is a function of the text content only: `hash` feeds exactly
`as_str v` to the hasher, so any two values with equal content hash
identically for every hasher and every hasher state, regardless of storage
mode. -/
theorem hash_content_only (f : Bytes → Nat → Nat) (v w : TinyBoxedStr) (h : Heap)
    (st : Nat) :
    TinyBoxedStr.hash f v h st = f (v.as_str h) st ∧
    (v.as_str h = w.as_str h →
      TinyBoxedStr.hash f v h st = TinyBoxedStr.hash f w h st) := by
  refine ⟨rfl, fun hc => ?_⟩
  simp [TinyBoxedStr.hash, TinyBoxedStr.as_str] at *
  rw [hc]

/-- C7: the default construction has length 0, zeroed prefix and suffix
storage, involves no heap (its definition does not even take a heap), and is
exactly the value `try_from` produces from the empty string, with the heap
unchanged. -/
theorem default_empty_spec (h : Heap) :
    TinyBoxedStr.default.len = 0 ∧
    TinyBoxedStr.default.pfx = List.replicate PREFIX_LEN 0 ∧
    TinyBoxedStr.default.trailing = TinyStrTrailing.suffix (List.replicate SUFFIX_LEN 0) ∧
    tryFrom [] h = (Except.ok TinyBoxedStr.default, h) ∧
    TinyBoxedStr.eq TinyBoxedStr.default TinyBoxedStr.default h = true := by
  refine ⟨rfl, rfl, rfl, ?_, rfl⟩
  rw [tryFrom_inline [] h (by simp)]
  rfl

theorem hash_content_only_witness :
    TinyBoxedStr.hash (fun bs st => bs.length + st)
        ⟨16, [], TinyStrTrailing.ptr 0⟩
        ⟨2, [(0, List.replicate 16 7), (1, List.replicate 16 7)]⟩ 3 =
      TinyBoxedStr.hash (fun bs st => bs.length + st)
        ⟨16, [9, 9, 9], TinyStrTrailing.ptr 1⟩
        ⟨2, [(0, List.replicate 16 7), (1, List.replicate 16 7)]⟩ 3 :=
  (hash_content_only (fun bs st => bs.length + st)
    ⟨16, [], TinyStrTrailing.ptr 0⟩ ⟨16, [9, 9, 9], TinyStrTrailing.ptr 1⟩
    ⟨2, [(0, List.replicate 16 7), (1, List.replicate 16 7)]⟩ 3).2 (by decide)

/-! ### Well-formedness: established by construction, preserved by the
lifecycle operations -/

theorem tryFrom_ok_WF (s : Bytes) (h : Heap) (v : TinyBoxedStr) (h' : Heap)
    (hok : tryFrom s h = (Except.ok v, h')) : v.WF h' := by
  rcases le_or_lt s.length MAX_LEN with hle | hgt
  · rcases le_or_lt s.length INLINE_LEN with hin | hout
    · rw [tryFrom_inline s h hin] at hok
      simp only [Prod.mk.injEq, Except.ok.injEq] at hok
      obtain ⟨hv, hh⟩ := hok
      subst hv
      subst hh
      have hlin : lenIsInline s.length = true := (lenIsInline_true_iff _).2 hin
      unfold TinyBoxedStr.WF
      simp only [hlin, if_true]
      refine ⟨?_, inlinePfx_length s, inlineSfx s, rfl, inlineSfx_length s hin⟩
      calc s.length ≤ INLINE_LEN := hin
        _ ≤ MAX_LEN := by decide
    · rw [tryFrom_heap s h hout hle] at hok
      simp only [Prod.mk.injEq, Except.ok.injEq] at hok
      obtain ⟨hv, hh⟩ := hok
      subst hv
      subst hh
      have hlin : lenIsInline s.length = false := (lenIsInline_false_iff _).2 hout
      unfold TinyBoxedStr.WF
      simp only [hlin, Bool.false_eq_true, if_false]
      refine ⟨hle, ?_, h.next, s, rfl, Nat.lt_succ_self _,
        Heap.lookup_cons_self _ _ _ _, rfl, rfl⟩
      rw [List.length_take]
      rw [INLINE_LEN_eq] at hout
      rw [PREFIX_LEN_eq]
      omega
  · rw [tryFrom_too_long s h hgt] at hok
    exact absurd hok (by simp)

theorem as_bytes_of_WF_heap (v : TinyBoxedStr) (h : Heap) (hv : v.WF h)
    (hmode : lenIsInline v.len = false) :
    ∃ p buf, v.trailing = .ptr p ∧ p < h.next ∧ h.lookup p = some buf ∧
      buf.length = v.len ∧ v.pfx = buf.take PREFIX_LEN ∧ v.as_bytes h = buf := by
  obtain ⟨h1, h2, h3⟩ := hv
  rw [hmode] at h3
  simp only [Bool.false_eq_true, if_false] at h3
  obtain ⟨p, buf, ht, hp, hlook, hlen, hpfx⟩ := h3
  exact ⟨p, buf, ht, hp, hlook, hlen, hpfx,
    as_bytes_heap_of_lookup v h p buf hmode ht hlook hlen⟩

theorem WF_suffix_of_inline (v : TinyBoxedStr) (h : Heap) (hv : v.WF h)
    (hmode : lenIsInline v.len = true) :
    ∃ sfx, v.trailing = .suffix sfx ∧ sfx.length = SUFFIX_LEN := by
  obtain ⟨h1, h2, h3⟩ := hv
  rw [hmode] at h3
  simpa using h3

theorem as_bytes_inline_heap_free (v : TinyBoxedStr) (h h2 : Heap)
    (hmode : lenIsInline v.len = true) : v.as_bytes h2 = v.as_bytes h := by
  simp [TinyBoxedStr.as_bytes, hmode]

theorem WF_alloc_cons (v : TinyBoxedStr) (h : Heap) (buf : Bytes) (hv : v.WF h) :
    v.WF ⟨h.next + 1, (h.next, buf) :: h.blocks⟩ := by
  obtain ⟨h1, h2, h3⟩ := hv
  refine ⟨h1, h2, ?_⟩
  cases hm : lenIsInline v.len with
  | true =>
    rw [hm] at h3
    simpa using h3
  | false =>
    rw [hm] at h3
    simp only [Bool.false_eq_true, if_false] at h3 ⊢
    obtain ⟨p, buf', ht, hp, hlook, hlen, hpfx⟩ := h3
    refine ⟨p, buf', ht, Nat.lt_succ_of_lt hp, ?_, hlen, hpfx⟩
    rw [Heap.lookup_cons_ne _ _ _ _ _ (Nat.ne_of_lt hp)]
    exact hlook

theorem WF_dealloc_ne (v : TinyBoxedStr) (h : Heap) (q sz : Nat) (hv : v.WF h)
    (hq : lenIsInline v.len = false → v.trailing.ptrVal ≠ q) :
    v.WF (h.dealloc q sz) := by
  obtain ⟨h1, h2, h3⟩ := hv
  refine ⟨h1, h2, ?_⟩
  cases hm : lenIsInline v.len with
  | true =>
    rw [hm] at h3
    simpa using h3
  | false =>
    rw [hm] at h3
    simp only [Bool.false_eq_true, if_false] at h3 ⊢
    obtain ⟨p, buf', ht, hp, hlook, hlen, hpfx⟩ := h3
    refine ⟨p, buf', ht, hp, ?_, hlen, hpfx⟩
    have hpq : p ≠ q := by
      have := hq hm
      rw [ht] at this
      exact this
    rw [Heap.lookup_dealloc_ne h q p sz hpq]
    exact hlook

theorem clone_inline_eq (v : TinyBoxedStr) (h : Heap) (hm : lenIsInline v.len = true) :
    v.clone h = (⟨v.len, v.pfx, .suffix v.trailing.suffixBytes⟩, h) := by
  simp [TinyBoxedStr.clone, hm]

theorem clone_heap_eq (v : TinyBoxedStr) (h : Heap) (hm : lenIsInline v.len = false) :
    v.clone h = (⟨v.len, v.pfx, .ptr h.next⟩,
      ⟨h.next + 1, (h.next, v.as_bytes h) :: h.blocks⟩) := by
  simp [TinyBoxedStr.clone, hm, copy_bytes, layout]

theorem drop_inline_eq (v : TinyBoxedStr) (h : Heap) (hm : lenIsInline v.len = true) :
    TinyBoxedStr.drop v h = h := by
  simp [TinyBoxedStr.drop, hm]

theorem drop_heap_eq (v : TinyBoxedStr) (h : Heap) (hm : lenIsInline v.len = false) :
    TinyBoxedStr.drop v h = h.dealloc v.trailing.ptrVal (layout v.len) := by
  simp [TinyBoxedStr.drop, hm]

/-- C3: the inline/heap threshold is inclusive and uniform.  Construction of
a string of at most `INLINE_LEN` bytes stores the content in the in-struct
suffix and leaves the heap untouched; construction of `INLINE_LEN + 1` up to
`MAX_LEN` bytes adds exactly one block, whose contents is the whole string
(so its size is the string's length), and stores its address in the trailing
word.  Access, clone and drop branch on the very same comparison
`lenIsInline v.len`: for inline values, drop and clone leave the heap
unchanged and `as_bytes` never consults the heap; for heap values, drop is
exactly one deallocation at the stored address with `layout v.len`, and
clone adds exactly one block holding the value's content. -/
theorem inline_heap_threshold (s : Bytes) (v : TinyBoxedStr) (h : Heap) :
    (s.length ≤ INLINE_LEN →
      tryFrom s h =
        (Except.ok ⟨s.length, inlinePfx s, TinyStrTrailing.suffix (inlineSfx s)⟩, h)) ∧
    (INLINE_LEN < s.length → s.length ≤ MAX_LEN →
      tryFrom s h = (Except.ok ⟨s.length, s.take PREFIX_LEN, TinyStrTrailing.ptr h.next⟩,
        ⟨h.next + 1, (h.next, s) :: h.blocks⟩)) ∧
    (lenIsInline v.len = true →
      TinyBoxedStr.drop v h = h ∧ (v.clone h).2 = h ∧
      ∀ h2 : Heap, v.as_bytes h2 = v.as_bytes h) ∧
    (lenIsInline v.len = false →
      TinyBoxedStr.drop v h = h.dealloc v.trailing.ptrVal (layout v.len) ∧
      (v.clone h).2 = ⟨h.next + 1, (h.next, v.as_bytes h) :: h.blocks⟩) := by
  refine ⟨tryFrom_inline s h, tryFrom_heap s h, fun hm => ?_, fun hm => ?_⟩
  · exact ⟨drop_inline_eq v h hm, by rw [clone_inline_eq v h hm],
      fun h2 => as_bytes_inline_heap_free v h h2 hm⟩
  · exact ⟨drop_heap_eq v h hm, by rw [clone_heap_eq v h hm]⟩

theorem inline_heap_threshold_witness :
    tryFrom (List.replicate 15 97) emptyHeap =
      (Except.ok ⟨(List.replicate 15 97).length, inlinePfx (List.replicate 15 97),
        TinyStrTrailing.suffix (inlineSfx (List.replicate 15 97))⟩, emptyHeap) ∧
    tryFrom (List.replicate 16 97) emptyHeap =
      (Except.ok ⟨(List.replicate 16 97).length, (List.replicate 16 97).take PREFIX_LEN,
        TinyStrTrailing.ptr 0⟩, ⟨1, [(0, List.replicate 16 97)]⟩) ∧
    TinyBoxedStr.drop TinyBoxedStr.default emptyHeap = emptyHeap ∧
    TinyBoxedStr.drop ⟨16, List.replicate 7 120, TinyStrTrailing.ptr 0⟩
        ⟨1, [(0, List.replicate 16 120)]⟩ =
      Heap.dealloc ⟨1, [(0, List.replicate 16 120)]⟩ 0 (layout 16) :=
  ⟨(inline_heap_threshold (List.replicate 15 97) TinyBoxedStr.default emptyHeap).1
      (by decide),
   (inline_heap_threshold (List.replicate 16 97) TinyBoxedStr.default emptyHeap).2.1
      (by decide) (by decide),
   ((inline_heap_threshold [] TinyBoxedStr.default emptyHeap).2.2.1 (by decide)).1,
   ((inline_heap_threshold [] ⟨16, List.replicate 7 120, TinyStrTrailing.ptr 0⟩
      ⟨1, [(0, List.replicate 16 120)]⟩).2.2.2 (by decide)).1⟩

/-- C4: a clone has the same length and content as the original; an inline
original is duplicated bytewise with the heap untouched; a heap-stored
original gets a freshly allocated buffer at a different address, and either
value can be dropped while the other still reads back its full content. -/
theorem clone_correct (v : TinyBoxedStr) (h : Heap) (hv : v.WF h) :
    ((v.clone h).1).len = v.len ∧
    ((v.clone h).1).as_str (v.clone h).2 = v.as_str h ∧
    v.as_str (v.clone h).2 = v.as_str h ∧
    (lenIsInline v.len = true →
      v.clone h = (⟨v.len, v.pfx, TinyStrTrailing.suffix v.trailing.suffixBytes⟩, h)) ∧
    (lenIsInline v.len = false →
      ((v.clone h).1).trailing.ptrVal ≠ v.trailing.ptrVal ∧
      ((v.clone h).1).as_str (TinyBoxedStr.drop v (v.clone h).2) = v.as_str h ∧
      v.as_str (TinyBoxedStr.drop (v.clone h).1 (v.clone h).2) = v.as_str h) := by
  cases hm : lenIsInline v.len with
  | true =>
    obtain ⟨sfx, hsfx, _⟩ := WF_suffix_of_inline v h hv hm
    rw [clone_inline_eq v h hm]
    have hbytes : ∀ h2 : Heap,
        TinyBoxedStr.as_bytes ⟨v.len, v.pfx, .suffix v.trailing.suffixBytes⟩ h2 =
          v.as_bytes h := by
      intro h2
      simp [TinyBoxedStr.as_bytes, hm, hsfx, TinyStrTrailing.suffixBytes]
    exact ⟨rfl, hbytes h, rfl, fun _ => rfl, fun hc => absurd hc (by simp)⟩
  | false =>
    obtain ⟨p, buf, ht, hp, hlook, hlen, hpfx, hbytes⟩ := as_bytes_of_WF_heap v h hv hm
    have hne : h.next ≠ p := Ne.symm (Nat.ne_of_lt hp)
    rw [clone_heap_eq v h hm]
    have hmw : lenIsInline (⟨v.len, v.pfx, TinyStrTrailing.ptr h.next⟩ : TinyBoxedStr).len
        = false := hm
    have hw : TinyBoxedStr.as_bytes ⟨v.len, v.pfx, .ptr h.next⟩
        ⟨h.next + 1, (h.next, v.as_bytes h) :: h.blocks⟩ = v.as_bytes h := by
      refine as_bytes_heap_of_lookup _ _ h.next (v.as_bytes h) hmw rfl
        (Heap.lookup_cons_self _ _ _ _) ?_
      rw [hbytes, hlen]
    have hvafter : TinyBoxedStr.as_bytes v
        ⟨h.next + 1, (h.next, v.as_bytes h) :: h.blocks⟩ = v.as_bytes h := by
      rw [hbytes]
      refine as_bytes_heap_of_lookup v _ p buf hm ht ?_ hlen
      rw [Heap.lookup_cons_ne _ _ _ _ _ (Ne.symm hne)]
      exact hlook
    have hdropv : TinyBoxedStr.drop v ⟨h.next + 1, (h.next, v.as_bytes h) :: h.blocks⟩ =
        Heap.dealloc ⟨h.next + 1, (h.next, v.as_bytes h) :: h.blocks⟩ p (layout v.len) := by
      rw [drop_heap_eq v _ hm, ht]
      rfl
    have hdropw :
        TinyBoxedStr.drop (⟨v.len, v.pfx, TinyStrTrailing.ptr h.next⟩ : TinyBoxedStr)
          ⟨h.next + 1, (h.next, v.as_bytes h) :: h.blocks⟩ =
        Heap.dealloc ⟨h.next + 1, (h.next, v.as_bytes h) :: h.blocks⟩ h.next
          (layout v.len) :=
      drop_heap_eq _ _ hmw
    refine ⟨rfl, hw, hvafter, fun hc => absurd hc (by simp), fun _ => ⟨?_, ?_, ?_⟩⟩
    · show h.next ≠ v.trailing.ptrVal
      rw [ht]
      exact hne
    · show TinyBoxedStr.as_bytes ⟨v.len, v.pfx, .ptr h.next⟩
          (TinyBoxedStr.drop v ⟨h.next + 1, (h.next, v.as_bytes h) :: h.blocks⟩) =
        v.as_str h
      rw [hdropv]
      refine as_bytes_heap_of_lookup _ _ h.next (v.as_bytes h) hmw rfl ?_ ?_
      · rw [Heap.lookup_dealloc_ne _ _ _ _ hne, Heap.lookup_cons_self]
      · rw [hbytes, hlen]
    · show TinyBoxedStr.as_bytes v
          (TinyBoxedStr.drop (⟨v.len, v.pfx, TinyStrTrailing.ptr h.next⟩ : TinyBoxedStr)
            ⟨h.next + 1, (h.next, v.as_bytes h) :: h.blocks⟩) = v.as_str h
      rw [hdropw]
      show TinyBoxedStr.as_bytes v _ = v.as_bytes h
      rw [hbytes]
      refine as_bytes_heap_of_lookup v _ p buf hm ht ?_ hlen
      rw [Heap.lookup_dealloc_ne _ _ _ _ (Ne.symm hne),
        Heap.lookup_cons_ne _ _ _ _ _ (Ne.symm hne)]
      exact hlook

theorem clone_correct_witness :
    ((TinyBoxedStr.clone ⟨16, List.replicate 7 120, TinyStrTrailing.ptr 0⟩
        ⟨1, [(0, List.replicate 16 120)]⟩).1).as_str
      (TinyBoxedStr.clone ⟨16, List.replicate 7 120, TinyStrTrailing.ptr 0⟩
        ⟨1, [(0, List.replicate 16 120)]⟩).2 =
      TinyBoxedStr.as_str ⟨16, List.replicate 7 120, TinyStrTrailing.ptr 0⟩
        ⟨1, [(0, List.replicate 16 120)]⟩ :=
  (clone_correct ⟨16, List.replicate 7 120, TinyStrTrailing.ptr 0⟩
    ⟨1, [(0, List.replicate 16 120)]⟩
    ⟨by decide, by decide, by
      rw [if_neg (by decide)]
      exact ⟨0, List.replicate 16 120, rfl, by decide, rfl, by decide, by decide⟩⟩).2.1

/-- C8: the prefix field always caches content.  Construction establishes
the full invariant `WF` (whose heap clause states that the prefix equals the
first `PREFIX_LEN` bytes of the heap buffer), clone preserves it, and for
every well-formed heap-stored value the prefix field equals the first
`PREFIX_LEN` bytes of the content read back by `as_bytes`. -/
theorem prefix_cache_invariant (s : Bytes) (v : TinyBoxedStr) (h : Heap) :
    (∀ w h', tryFrom s h = (Except.ok w, h') → w.WF h') ∧
    (v.WF h → ((v.clone h).1).WF (v.clone h).2) ∧
    (v.WF h → lenIsInline v.len = false → v.pfx = (v.as_bytes h).take PREFIX_LEN) := by
  refine ⟨fun w h' hok => tryFrom_ok_WF s h w h' hok, fun hv => ?_, fun hv hm => ?_⟩
  · cases hm : lenIsInline v.len with
    | true =>
      obtain ⟨sfx, hsfx, hsfxlen⟩ := WF_suffix_of_inline v h hv hm
      rw [clone_inline_eq v h hm]
      obtain ⟨h1, h2, _⟩ := hv
      refine ⟨h1, h2, ?_⟩
      rw [hm]
      simp only [if_true]
      exact ⟨v.trailing.suffixBytes, rfl, by rw [hsfx, TinyStrTrailing.suffixBytes, hsfxlen]⟩
    | false =>
      obtain ⟨p, buf, ht, hp, hlook, hlen, hpfx, hbytes⟩ := as_bytes_of_WF_heap v h hv hm
      rw [clone_heap_eq v h hm]
      obtain ⟨h1, h2, _⟩ := hv
      refine ⟨h1, h2, ?_⟩
      rw [hm]
      simp only [Bool.false_eq_true, if_false]
      exact ⟨h.next, v.as_bytes h, rfl, Nat.lt_succ_self _, Heap.lookup_cons_self _ _ _ _,
        by rw [hbytes, hlen], by rw [hbytes, hpfx]⟩
  · obtain ⟨p, buf, ht, hp, hlook, hlen, hpfx, hbytes⟩ := as_bytes_of_WF_heap v h hv hm
    rw [hbytes, hpfx]

theorem prefix_cache_invariant_witness :
    TinyBoxedStr.WF ⟨16, List.replicate 7 120, TinyStrTrailing.ptr 0⟩
      ⟨1, [(0, List.replicate 16 120)]⟩ :=
  (prefix_cache_invariant (List.replicate 16 120) TinyBoxedStr.default emptyHeap).1
    ⟨16, List.replicate 7 120, TinyStrTrailing.ptr 0⟩ ⟨1, [(0, List.replicate 16 120)]⟩
    (by rfl)

/-! ### Allocation / deallocation bookkeeping -/

theorem drop_next (v : TinyBoxedStr) (h : Heap) : (TinyBoxedStr.drop v h).next = h.next := by
  unfold TinyBoxedStr.drop Heap.dealloc
  split
  · rfl
  · rfl

theorem dropList_cons (v : TinyBoxedStr) (vs : List TinyBoxedStr) (h : Heap) :
    dropList (v :: vs) h = dropList vs (TinyBoxedStr.drop v h) := rfl

theorem dropList_next (vs : List TinyBoxedStr) (h : Heap) :
    (dropList vs h).next = h.next := by
  induction vs generalizing h with
  | nil => rfl
  | cons v vs ih => rw [dropList_cons, ih, drop_next]

theorem heapPtrs_nil : heapPtrs [] = [] := rfl

theorem heapPtrs_cons_inline (v : TinyBoxedStr) (vs : List TinyBoxedStr)
    (hm : lenIsInline v.len = true) : heapPtrs (v :: vs) = heapPtrs vs := by
  simp [heapPtrs, hm]

theorem heapPtrs_cons_heap (v : TinyBoxedStr) (vs : List TinyBoxedStr)
    (hm : lenIsInline v.len = false) :
    heapPtrs (v :: vs) = v.trailing.ptrVal :: heapPtrs vs := by
  simp [heapPtrs, hm]

theorem dropList_blocks (vs : List TinyBoxedStr) (h : Heap) :
    (dropList vs h).blocks = h.blocks.filter (fun b => !((heapPtrs vs).contains b.1)) := by
  induction vs generalizing h with
  | nil => simp [dropList, heapPtrs_nil]
  | cons v vs ih =>
    rw [dropList_cons, ih]
    cases hm : lenIsInline v.len with
    | true =>
      rw [drop_inline_eq v h hm, heapPtrs_cons_inline v vs hm]
    | false =>
      rw [drop_heap_eq v h hm, heapPtrs_cons_heap v vs hm]
      unfold Heap.dealloc
      simp only
      rw [List.filter_filter]
      refine List.filter_congr ?_
      intro b _
      rw [List.contains_cons]
      cases hb : b.1 == v.trailing.ptrVal with
      | true => simp [bne, hb]
      | false => simp [bne, hb]

theorem find?_key_append_of_lt (owned old : List (Nat × Bytes)) (p n : Nat)
    (howned : ∀ b ∈ owned, n ≤ b.1) (hp : p < n) :
    (owned ++ old).find? (fun b => b.1 == p) = old.find? (fun b => b.1 == p) := by
  induction owned with
  | nil => rfl
  | cons b bs ih =>
    have hb : (b.1 == p) = false := by
      simp
      have := howned b (List.mem_cons_self b bs)
      omega
    rw [List.cons_append, List.find?_cons_of_neg _ (by simp [hb])]
    exact ih fun c hc => howned c (List.mem_cons_of_mem _ hc)

theorem WF_mono_blocks (v : TinyBoxedStr) (h h' : Heap) (owned : List (Nat × Bytes))
    (hv : v.WF h) (hnext : h.next ≤ h'.next)
    (hblocks : h'.blocks = owned ++ h.blocks)
    (howned : ∀ b ∈ owned, h.next ≤ b.1) : v.WF h' := by
  obtain ⟨h1, h2, h3⟩ := hv
  refine ⟨h1, h2, ?_⟩
  cases hm : lenIsInline v.len with
  | true =>
    rw [hm] at h3
    simpa using h3
  | false =>
    rw [hm] at h3
    simp only [Bool.false_eq_true, if_false] at h3 ⊢
    obtain ⟨p, buf, ht, hp, hlook, hlen, hpfx⟩ := h3
    refine ⟨p, buf, ht, Nat.lt_of_lt_of_le hp hnext, ?_, hlen, hpfx⟩
    unfold Heap.lookup at hlook ⊢
    rw [hblocks, find?_key_append_of_lt owned h.blocks p h.next howned hp]
    exact hlook

theorem WF_inline_any_heap (v : TinyBoxedStr) (h h2 : Heap) (hv : v.WF h)
    (hm : lenIsInline v.len = true) : v.WF h2 := by
  obtain ⟨h1, hpl, h3⟩ := hv
  refine ⟨h1, hpl, ?_⟩
  rw [hm] at h3 ⊢
  simpa using h3

theorem constructList_nil (h : Heap) : constructList [] h = ([], h) := rfl

theorem constructList_cons (s : Bytes) (rest : List Bytes) (h : Heap) :
    constructList (s :: rest) h =
      (consValue (tryFrom s h).1 (constructList rest (tryFrom s h).2).1,
       (constructList rest (tryFrom s h).2).2) := rfl

theorem constructList_spec (ss : List Bytes) (h : Heap) (hwf : h.WF) :
    h.next ≤ (constructList ss h).2.next ∧
    (constructList ss h).2.WF ∧
    (∀ p ∈ heapPtrs (constructList ss h).1, h.next ≤ p) ∧
    (∀ v ∈ (constructList ss h).1, v.WF (constructList ss h).2) ∧
    ∃ owned, (constructList ss h).2.blocks = owned ++ h.blocks ∧
      (∀ b ∈ owned, h.next ≤ b.1 ∧ b.1 ∈ heapPtrs (constructList ss h).1) := by
  induction ss generalizing h with
  | nil =>
    exact ⟨Nat.le_refl _, hwf, by simp [constructList_nil, heapPtrs_nil],
      by simp [constructList_nil], [], by simp [constructList_nil], by simp⟩
  | cons s rest ih =>
    rcases le_or_lt s.length MAX_LEN with hle | hgt
    · rcases le_or_lt s.length INLINE_LEN with hin | hout
      · have heq : constructList (s :: rest) h =
            ((⟨s.length, inlinePfx s, .suffix (inlineSfx s)⟩ : TinyBoxedStr) ::
              (constructList rest h).1, (constructList rest h).2) := by
          rw [constructList_cons, tryFrom_inline s h hin]
          rfl
        obtain ⟨ihnext, ihWF, ihptrs, ihvWF, owned, ihblocks, ihowned⟩ := ih h hwf
        have hm : lenIsInline
            (⟨s.length, inlinePfx s, .suffix (inlineSfx s)⟩ : TinyBoxedStr).len = true :=
          (lenIsInline_true_iff _).2 hin
        have hvwf : (⟨s.length, inlinePfx s, .suffix (inlineSfx s)⟩ : TinyBoxedStr).WF h :=
          tryFrom_ok_WF s h _ h (tryFrom_inline s h hin)
        rw [heq]
        refine ⟨ihnext, ihWF, ?_, ?_, owned, ihblocks, ?_⟩
        · rw [heapPtrs_cons_inline _ _ hm]
          exact ihptrs
        · intro v hv
          rcases List.mem_cons.1 hv with hv | hv
          · subst hv
            exact WF_inline_any_heap _ h _ hvwf hm
          · exact ihvWF v hv
        · intro b hb
          obtain ⟨hb1, hb2⟩ := ihowned b hb
          rw [heapPtrs_cons_inline _ _ hm]
          exact ⟨hb1, hb2⟩
      · have htf := tryFrom_heap s h hout hle
        have heq : constructList (s :: rest) h =
            ((⟨s.length, s.take PREFIX_LEN, .ptr h.next⟩ : TinyBoxedStr) ::
              (constructList rest ⟨h.next + 1, (h.next, s) :: h.blocks⟩).1,
             (constructList rest ⟨h.next + 1, (h.next, s) :: h.blocks⟩).2) := by
          rw [constructList_cons, htf]
          rfl
        have hwf1 : Heap.WF ⟨h.next + 1, (h.next, s) :: h.blocks⟩ := by
          intro b hb
          rcases List.mem_cons.1 hb with hb | hb
          · rw [hb]
            exact Nat.lt_succ_self _
          · exact Nat.lt_succ_of_lt (hwf b hb)
        obtain ⟨ihnext, ihWF, ihptrs, ihvWF, owned, ihblocks, ihowned⟩ :=
          ih ⟨h.next + 1, (h.next, s) :: h.blocks⟩ hwf1
        have hm : lenIsInline
            (⟨s.length, s.take PREFIX_LEN, .ptr h.next⟩ : TinyBoxedStr).len = false :=
          (lenIsInline_false_iff _).2 hout
        have hvwf : (⟨s.length, s.take PREFIX_LEN, .ptr h.next⟩ : TinyBoxedStr).WF
            ⟨h.next + 1, (h.next, s) :: h.blocks⟩ :=
          tryFrom_ok_WF s h _ _ htf
        rw [heq]
        have hptrs2 : ∀ p ∈ heapPtrs ((⟨s.length, s.take PREFIX_LEN, .ptr h.next⟩ :
            TinyBoxedStr) :: (constructList rest ⟨h.next + 1, (h.next, s) :: h.blocks⟩).1),
            h.next ≤ p := by
          rw [heapPtrs_cons_heap _ _ hm]
          intro p hp
          rcases List.mem_cons.1 hp with hp | hp
          · rw [hp]
            exact Nat.le_refl _
          · exact Nat.le_of_succ_le (ihptrs p hp)
        refine ⟨Nat.le_trans (Nat.le_succ _) ihnext, ihWF, hptrs2, ?_,
          owned ++ [(h.next, s)], ?_, ?_⟩
        · intro v hv
          rcases List.mem_cons.1 hv with hv | hv
          · subst hv
            refine WF_mono_blocks _ ⟨h.next + 1, (h.next, s) :: h.blocks⟩ _ owned hvwf
              ihnext ihblocks ?_
            intro b hb
            exact (ihowned b hb).1
          · exact ihvWF v hv
        · rw [ihblocks, List.append_assoc, List.cons_append, List.nil_append]
        · intro b hb
          rcases List.mem_append.1 hb with hb | hb
          · obtain ⟨hb1, hb2⟩ := ihowned b hb
            refine ⟨Nat.le_of_succ_le hb1, ?_⟩
            rw [heapPtrs_cons_heap _ _ hm]
            exact List.mem_cons_of_mem _ hb2
          · rcases List.mem_singleton.1 hb with hb
            rw [hb]
            refine ⟨Nat.le_refl _, ?_⟩
            rw [heapPtrs_cons_heap _ _ hm]
            exact List.mem_cons_self _ _
    · have heq : constructList (s :: rest) h = constructList rest h := by
        rw [constructList_cons, tryFrom_too_long s h hgt]
        exact Prod.mk.eta
      rw [heq]
      exact ih h hwf

theorem clone_WF_pair (v : TinyBoxedStr) (h : Heap) (hv : v.WF h) :
    ((v.clone h).1).WF (v.clone h).2 := by
  cases hm : lenIsInline v.len with
  | true =>
    obtain ⟨sfx, hsfx, hsfxlen⟩ := WF_suffix_of_inline v h hv hm
    rw [clone_inline_eq v h hm]
    obtain ⟨h1, h2, _⟩ := hv
    refine ⟨h1, h2, ?_⟩
    rw [hm]
    simp only [if_true]
    exact ⟨v.trailing.suffixBytes, rfl, by rw [hsfx, TinyStrTrailing.suffixBytes, hsfxlen]⟩
  | false =>
    obtain ⟨p, buf, ht, hp, hlook, hlen, hpfx, hbytes⟩ := as_bytes_of_WF_heap v h hv hm
    rw [clone_heap_eq v h hm]
    obtain ⟨h1, h2, _⟩ := hv
    refine ⟨h1, h2, ?_⟩
    rw [hm]
    simp only [Bool.false_eq_true, if_false]
    exact ⟨h.next, v.as_bytes h, rfl, Nat.lt_succ_self _, Heap.lookup_cons_self _ _ _ _,
      by rw [hbytes, hlen], by rw [hbytes, hpfx]⟩

theorem runOps_nil (vs : List TinyBoxedStr) (h : Heap) : runOps [] vs h = (vs, h) := rfl

theorem runOps_cons (op : Op) (rest : List Op) (vs : List TinyBoxedStr) (h : Heap) :
    runOps (op :: rest) vs h = runOps rest (applyOp vs h op).1 (applyOp vs h op).2 := rfl

theorem applyOp_construct (vs : List TinyBoxedStr) (h : Heap) (s : Bytes) :
    applyOp vs h (Op.construct s) = (consValue (tryFrom s h).1 vs, (tryFrom s h).2) := rfl

theorem applyOp_clone (vs : List TinyBoxedStr) (h : Heap) (i : Nat) :
    applyOp vs h (Op.clone i) = cloneAt vs h (vs.get? i) := rfl

theorem applyOp_inv (h0 : Heap) (vs : List TinyBoxedStr) (h : Heap) (op : Op)
    (hinv : ScenarioInv h0 vs h) :
    ScenarioInv h0 (applyOp vs h op).1 (applyOp vs h op).2 := by
  obtain ⟨hnext, hWF, hptrs, hvWF, owned, hblocks, howned⟩ := hinv
  cases op with
  | construct s =>
    rcases le_or_lt s.length MAX_LEN with hle | hgt
    · rcases le_or_lt s.length INLINE_LEN with hin | hout
      · have happ : applyOp vs h (Op.construct s) =
            ((⟨s.length, inlinePfx s, .suffix (inlineSfx s)⟩ : TinyBoxedStr) :: vs, h) := by
          rw [applyOp_construct, tryFrom_inline s h hin]
          rfl
        rw [happ]
        have hm : lenIsInline
            (⟨s.length, inlinePfx s, .suffix (inlineSfx s)⟩ : TinyBoxedStr).len = true :=
          (lenIsInline_true_iff _).2 hin
        refine ⟨hnext, hWF, ?_, ?_, owned, hblocks, ?_⟩
        · rw [heapPtrs_cons_inline _ _ hm]
          exact hptrs
        · intro w hw
          rcases List.mem_cons.1 hw with hw | hw
          · subst hw
            exact tryFrom_ok_WF s h _ h (tryFrom_inline s h hin)
          · exact hvWF w hw
        · intro b hb
          obtain ⟨hb1, hb2⟩ := howned b hb
          rw [heapPtrs_cons_inline _ _ hm]
          exact ⟨hb1, hb2⟩
      · have htf := tryFrom_heap s h hout hle
        have happ : applyOp vs h (Op.construct s) =
            ((⟨s.length, s.take PREFIX_LEN, .ptr h.next⟩ : TinyBoxedStr) :: vs,
             ⟨h.next + 1, (h.next, s) :: h.blocks⟩) := by
          rw [applyOp_construct, htf]
          rfl
        rw [happ]
        have hm : lenIsInline
            (⟨s.length, s.take PREFIX_LEN, .ptr h.next⟩ : TinyBoxedStr).len = false :=
          (lenIsInline_false_iff _).2 hout
        have hwf1 : Heap.WF ⟨h.next + 1, (h.next, s) :: h.blocks⟩ := by
          intro b hb
          rcases List.mem_cons.1 hb with hb | hb
          · rw [hb]
            exact Nat.lt_succ_self _
          · exact Nat.lt_succ_of_lt (hWF b hb)
        refine ⟨Nat.le_trans hnext (Nat.le_succ _), hwf1, ?_, ?_,
          (h.next, s) :: owned, ?_, ?_⟩
        · rw [heapPtrs_cons_heap _ _ hm]
          intro q hq
          rcases List.mem_cons.1 hq with hq | hq
          · rw [hq]
            exact hnext
          · exact hptrs q hq
        · intro w hw
          rcases List.mem_cons.1 hw with hw | hw
          · subst hw
            exact tryFrom_ok_WF s h _ _ htf
          · exact WF_alloc_cons w h s (hvWF w hw)
        · show (h.next, s) :: h.blocks = ((h.next, s) :: owned) ++ h0.blocks
          rw [hblocks, List.cons_append]
        · intro b hb
          rcases List.mem_cons.1 hb with hb | hb
          · rw [hb]
            refine ⟨hnext, ?_⟩
            rw [heapPtrs_cons_heap _ _ hm]
            exact List.mem_cons_self _ _
          · obtain ⟨hb1, hb2⟩ := howned b hb
            refine ⟨hb1, ?_⟩
            rw [heapPtrs_cons_heap _ _ hm]
            exact List.mem_cons_of_mem _ hb2
    · have happ : applyOp vs h (Op.construct s) = (vs, h) := by
        rw [applyOp_construct, tryFrom_too_long s h hgt]
        rfl
      rw [happ]
      exact ⟨hnext, hWF, hptrs, hvWF, owned, hblocks, howned⟩
  | clone i =>
    cases hget : vs.get? i with
    | none =>
      have happ : applyOp vs h (Op.clone i) = (vs, h) := by
        rw [applyOp_clone, hget]
        rfl
      rw [happ]
      exact ⟨hnext, hWF, hptrs, hvWF, owned, hblocks, howned⟩
    | some v =>
      have hv : v ∈ vs := List.get?_mem hget
      have hvW : v.WF h := hvWF v hv
      have happ : applyOp vs h (Op.clone i) = ((v.clone h).1 :: vs, (v.clone h).2) := by
        rw [applyOp_clone, hget]
        rfl
      rw [happ]
      cases hm : lenIsInline v.len with
      | true =>
        rw [clone_inline_eq v h hm]
        have hm2 : lenIsInline
            (⟨v.len, v.pfx, .suffix v.trailing.suffixBytes⟩ : TinyBoxedStr).len = true := hm
        refine ⟨hnext, hWF, ?_, ?_, owned, hblocks, ?_⟩
        · rw [heapPtrs_cons_inline _ _ hm2]
          exact hptrs
        · intro w hw
          rcases List.mem_cons.1 hw with hw | hw
          · subst hw
            have hcwf := clone_WF_pair v h hvW
            rw [clone_inline_eq v h hm] at hcwf
            exact hcwf
          · exact hvWF w hw
        · intro b hb
          obtain ⟨hb1, hb2⟩ := howned b hb
          rw [heapPtrs_cons_inline _ _ hm2]
          exact ⟨hb1, hb2⟩
      | false =>
        rw [clone_heap_eq v h hm]
        have hm2 : lenIsInline
            (⟨v.len, v.pfx, TinyStrTrailing.ptr h.next⟩ : TinyBoxedStr).len = false := hm
        have hwf1 : Heap.WF ⟨h.next + 1, (h.next, v.as_bytes h) :: h.blocks⟩ := by
          intro b hb
          rcases List.mem_cons.1 hb with hb | hb
          · rw [hb]
            exact Nat.lt_succ_self _
          · exact Nat.lt_succ_of_lt (hWF b hb)
        refine ⟨Nat.le_trans hnext (Nat.le_succ _), hwf1, ?_, ?_,
          (h.next, v.as_bytes h) :: owned, ?_, ?_⟩
        · rw [heapPtrs_cons_heap _ _ hm2]
          intro q hq
          rcases List.mem_cons.1 hq with hq | hq
          · rw [hq]
            exact hnext
          · exact hptrs q hq
        · intro w hw
          rcases List.mem_cons.1 hw with hw | hw
          · subst hw
            have hcwf := clone_WF_pair v h hvW
            rw [clone_heap_eq v h hm] at hcwf
            exact hcwf
          · exact WF_alloc_cons w h (v.as_bytes h) (hvWF w hw)
        · show (h.next, v.as_bytes h) :: h.blocks =
            ((h.next, v.as_bytes h) :: owned) ++ h0.blocks
          rw [hblocks, List.cons_append]
        · intro b hb
          rcases List.mem_cons.1 hb with hb | hb
          · rw [hb]
            refine ⟨hnext, ?_⟩
            rw [heapPtrs_cons_heap _ _ hm2]
            exact List.mem_cons_self _ _
          · obtain ⟨hb1, hb2⟩ := howned b hb
            refine ⟨hb1, ?_⟩
            rw [heapPtrs_cons_heap _ _ hm2]
            exact List.mem_cons_of_mem _ hb2

theorem runOps_inv (ops : List Op) (h0 : Heap) (vs : List TinyBoxedStr) (h : Heap)
    (hinv : ScenarioInv h0 vs h) :
    ScenarioInv h0 (runOps ops vs h).1 (runOps ops vs h).2 := by
  induction ops generalizing vs h with
  | nil => exact hinv
  | cons op rest ih =>
    rw [runOps_cons]
    exact ih _ _ (applyOp_inv h0 vs h op hinv)

/-- C9: allocation/deallocation symmetry.  Run any scenario of constructions
and clones (in any interleaving, of any lengths) from a well-formed heap,
then run every destructor in any order (any permutation of the created
values): the heap's live blocks return exactly to what they were, so every
buffer allocated — whether by construction or by clone — was released
exactly once, by its owning value's destructor, and nothing else was
touched; moreover each heap-stored value's destructor passes `layout v.len`
to the deallocator, and that size equals the size of the buffer it owns. -/
theorem alloc_dealloc_symmetry (ops : List Op) (h : Heap) (hwf : h.WF)
    (vs2 : List TinyBoxedStr) (hperm : List.Perm (runOps ops [] h).1 vs2) :
    (dropList vs2 (runOps ops [] h).2).blocks = h.blocks ∧
    (dropList vs2 (runOps ops [] h).2).next = (runOps ops [] h).2.next ∧
    (∀ v ∈ (runOps ops [] h).1, lenIsInline v.len = false →
      ∃ buf, (runOps ops [] h).2.lookup v.trailing.ptrVal = some buf ∧
        buf.length = layout v.len) := by
  have hinv0 : ScenarioInv h [] h :=
    ⟨Nat.le_refl _, hwf, by simp [heapPtrs_nil], by simp, [], by simp, by simp⟩
  obtain ⟨hnext, hWF, hptrs, hvWF, owned, hblocks, howned⟩ :=
    runOps_inv ops h [] h hinv0
  have hpp : List.Perm (heapPtrs (runOps ops [] h).1) (heapPtrs vs2) :=
    hperm.filterMap _
  refine ⟨?_, dropList_next vs2 _, ?_⟩
  · rw [dropList_blocks vs2 _, hblocks, List.filter_append]
    have hfo : owned.filter (fun b => !((heapPtrs vs2).contains b.1)) = [] := by
      rw [List.filter_eq_nil_iff]
      intro b hb
      have hmem : b.1 ∈ heapPtrs vs2 := hpp.mem_iff.1 (howned b hb).2
      simp [hmem]
    have hfs : h.blocks.filter (fun b => !((heapPtrs vs2).contains b.1)) = h.blocks := by
      rw [List.filter_eq_self]
      intro b hb
      have hlt := hwf b hb
      have hnm : b.1 ∉ heapPtrs vs2 := by
        intro hmem
        have := hptrs b.1 (hpp.mem_iff.2 hmem)
        omega
      simp [hnm]
    rw [hfo, hfs, List.nil_append]
  · intro v hv hm
    obtain ⟨p, buf, ht, hp, hlook, hlen, _, _⟩ :=
      as_bytes_of_WF_heap v (runOps ops [] h).2 (hvWF v hv) hm
    rw [ht]
    exact ⟨buf, hlook, hlen⟩

theorem alloc_dealloc_symmetry_witness :
    (dropList ((runOps [Op.construct (List.replicate 16 120), Op.clone 0,
        Op.construct [1, 2, 3], Op.construct (List.replicate 17 121), Op.clone 0]
        [] emptyHeap).1).reverse
      (runOps [Op.construct (List.replicate 16 120), Op.clone 0,
        Op.construct [1, 2, 3], Op.construct (List.replicate 17 121), Op.clone 0]
        [] emptyHeap).2).blocks = emptyHeap.blocks ∧
    (dropList ((runOps [Op.construct (List.replicate 16 120), Op.clone 0,
        Op.construct [1, 2, 3], Op.construct (List.replicate 17 121), Op.clone 0]
        [] emptyHeap).1).reverse
      (runOps [Op.construct (List.replicate 16 120), Op.clone 0,
        Op.construct [1, 2, 3], Op.construct (List.replicate 17 121), Op.clone 0]
        [] emptyHeap).2).next =
      (runOps [Op.construct (List.replicate 16 120), Op.clone 0,
        Op.construct [1, 2, 3], Op.construct (List.replicate 17 121), Op.clone 0]
        [] emptyHeap).2.next ∧
    (∀ v ∈ (runOps [Op.construct (List.replicate 16 120), Op.clone 0,
        Op.construct [1, 2, 3], Op.construct (List.replicate 17 121), Op.clone 0]
        [] emptyHeap).1, lenIsInline v.len = false →
      ∃ buf, (runOps [Op.construct (List.replicate 16 120), Op.clone 0,
          Op.construct [1, 2, 3], Op.construct (List.replicate 17 121), Op.clone 0]
          [] emptyHeap).2.lookup v.trailing.ptrVal = some buf ∧
        buf.length = layout v.len) :=
  alloc_dealloc_symmetry
    [Op.construct (List.replicate 16 120), Op.clone 0,
      Op.construct [1, 2, 3], Op.construct (List.replicate 17 121), Op.clone 0]
    emptyHeap (by intro b hb; exact absurd hb (List.not_mem_nil b))
    ((runOps [Op.construct (List.replicate 16 120), Op.clone 0,
      Op.construct [1, 2, 3], Op.construct (List.replicate 17 121), Op.clone 0]
      [] emptyHeap).1).reverse
    (List.reverse_perm _).symm

end TinyStr
